import Mathlib

/-!
Verification of the Leek Factory Tycoon calculator (`src/calculator.py`).

The Python program builds a mixed-integer linear program with PuLP and solves
it with CBC.  This development shallowly embeds the program:

* numeric quantities (`Base Rate`, `Gold Gain`, rates, balances) are modelled
  as exact rationals `ℚ`;
* a recipe mapping (a Python `OrderedDict`) is an association list
  `List (String × _)` whose keys are pairwise distinct;
* the external MILP solver (`prob.solve(pulp.PULP_CBC_CMD(msg=0))`) is an
  opaque collaborator: each optimization function takes the solver's outcome
  as an explicit argument (`none` models a non-`Optimal` status), and theorems
  carry the solver contract — the returned point is feasible and maximizes the
  model's objective — as hypotheses;
* the integer decision variables `F_name` are a function `String → ℕ`
  (`lowBound=0, cat="Integer"`); since the model is integral, the rounding
  `int(varValue + 0.5)` in `_parse_results` is the identity and counts are
  taken as natural numbers directly;
* `graphlib.TopologicalSorter(...).static_order()` is modelled by Kahn's
  algorithm with ties broken by declaration order (spec §4.2: "any
  deterministic algorithm, e.g. Kahn's; ties broken by original declaration
  order"); raising `CycleError` is modelled by returning `none`;
* Python exceptions are modelled with `Except`: a solver call that raises is
  an `Except.error`, and — since `optimize_gpm` / `optimize_tiers` contain no
  `try`/`except` — an error outcome propagates out of the embedded functions.
-/

/-- A raw recipe record as read from `recipes.json` before construction:
`Base Rate`, `Gold Gain`, `TierMultiplier`, `Inputs`, `Outputs`.  The two
mappings are association lists with pairwise-distinct keys (Python dicts). -/
structure Recipe where
  baseRate : ℚ
  goldGain : ℚ
  tierMultiplier : ℚ
  inputs : List (String × ℚ)
  outputs : List (String × ℚ)
  deriving DecidableEq

/-- A recipe record after `_precalculate_rates` has stored the two derived
keys `"Effective Rate"` and `"GPM"` into it. -/
structure AnnRecipe where
  base : Recipe
  effectiveRate : ℚ
  gpm : ℚ
  deriving DecidableEq

/-- First-match lookup in an association list; models Python dict indexing
`d[k]` (`none` models a `KeyError`). -/
def lookupName {α : Type} (n : String) : List (String × α) → Option α
  | [] => none
  | p :: rest => if p.1 = n then some p.2 else lookupName n rest

/-- `_clean_recipes`: `if "Barrel to Leek" in self.recipes: del self.recipes["Barrel to Leek"]`.
On an association list with distinct keys this removes exactly the entries
keyed `"Barrel to Leek"`. -/
def cleanRecipes (rs : List (String × Recipe)) : List (String × Recipe) :=
  rs.filter (fun p => p.1 ≠ "Barrel to Leek")

/-- `_precalculate_rates`: for each recipe,
`effective_rate = base_rate * (rate_multiplier ** (factory_level - 1))` and
`GPM = effective_rate * gold_gain * 60`, stored into the record. -/
def precalcRates (rm : ℚ) (fl : ℕ) (rs : List (String × Recipe)) :
    List (String × AnnRecipe) :=
  rs.map (fun p =>
    (p.1, { base := p.2
            effectiveRate := p.2.baseRate * rm ^ (fl - 1)
            gpm := p.2.baseRate * rm ^ (fl - 1) * p.2.goldGain * 60 }))

/-- `_build_dependency_graph`: each recipe maps to the list of its input
resource names that are themselves recipe names
(`if input_res in self.recipes`). -/
def depGraphOf (rs : List (String × AnnRecipe)) : List (String × List String) :=
  rs.map (fun p =>
    (p.1, (p.2.base.inputs.map Prod.fst).filter (fun i => i ∈ rs.map Prod.fst)))

/-- One step of Kahn's algorithm: pick the first (declaration-order) entry all
of whose predecessors have already been emitted, returning it and the
remaining entries. -/
def pickReady (emitted : List String) :
    List (String × List String) → Option (String × List (String × List String))
  | [] => none
  | (n, ps) :: rest =>
    if ∀ p ∈ ps, p ∈ emitted then some (n, rest)
    else
      match pickReady emitted rest with
      | some (m, rest') => some (m, (n, ps) :: rest')
      | none => none

/-- Fuelled driver loop of Kahn's algorithm. -/
def topoLoop : ℕ → List String → List (String × List String) → Option (List String)
  | 0, acc, rem => if rem.isEmpty then some acc else none
  | fuel + 1, acc, rem =>
    if rem.isEmpty then some acc
    else
      match pickReady acc rem with
      | none => none
      | some (n, rest) => topoLoop fuel (acc ++ [n]) rest

/-- Models `list(TopologicalSorter(self.dependency_graph).static_order())`:
`some order` on success, `none` where graphlib raises `CycleError`. -/
def topoSort (g : List (String × List String)) : Option (List String) :=
  topoLoop g.length [] g

/-- State of a constructed `FactoryOptimizer` (the fields set by `__init__`,
with `build_order` already computed). -/
structure FactoryOptimizer where
  recipes : List (String × AnnRecipe)
  rateMultiplier : ℚ
  factoryLevel : ℕ
  totalFactories : ℕ
  buildOrder : List String
  deriving DecidableEq

/-- `FactoryOptimizer.__init__`: clean the recipe dict, precompute the rates,
build the dependency graph and topologically sort it.  Returns `none` where
the Python constructor raises graphlib's `CycleError` (the
`CyclicDependencyError` of the spec), so a cyclic recipe set never yields an
optimizer value. -/
def FactoryOptimizer.mk' (raw : List (String × Recipe)) (rm : ℚ) (fl : ℕ)
    (tf : ℕ) : Option FactoryOptimizer :=
  match topoSort (depGraphOf (precalcRates rm fl (cleanRecipes raw))) with
  | none => none
  | some ord =>
    some { recipes := precalcRates rm fl (cleanRecipes raw)
           rateMultiplier := rm, factoryLevel := fl
           totalFactories := tf, buildOrder := ord }

/-- Total quantity of resource `res` among a recipe's `Outputs` (the keys of a
Python dict are distinct, so at most one entry contributes). -/
def outQty (r : AnnRecipe) (res : String) : ℚ :=
  (r.base.outputs.map (fun q => if q.1 = res then q.2 else 0)).sum

/-- Total quantity of resource `res` among a recipe's `Inputs`. -/
def inQty (r : AnnRecipe) (res : String) : ℚ :=
  (r.base.inputs.map (fun q => if q.1 = res then q.2 else 0)).sum

/-- The linear expression `resource_balance[res]` built by `optimize_gpm` /
`optimize_tiers`: outputs add `qty * rate * count`, inputs subtract it except
for the exempt resource `"Leek"` (`if res != "Leek"`), evaluated at a concrete
assignment `c` of the integer variables.  The Python loop runs over
`build_order`, a permutation of the recipe keys; addition is commutative, so
the sum is taken over the registry directly. -/
def balanceAt (rs : List (String × AnnRecipe)) (c : String → ℕ) (res : String) : ℚ :=
  (rs.map (fun p =>
    outQty p.2 res * p.2.effectiveRate * (c p.1 : ℚ) -
      (if res = "Leek" then 0
       else inQty p.2 res * p.2.effectiveRate * (c p.1 : ℚ)))).sum

/-- The keys of the `resource_balance` defaultdict: every resource occurring
in some recipe's `Outputs`, plus every non-`"Leek"` resource occurring in some
recipe's `Inputs`. -/
def resourcesOf (rs : List (String × AnnRecipe)) : List String :=
  (rs.map (fun p =>
    p.2.base.outputs.map Prod.fst ++
      (p.2.base.inputs.map Prod.fst).filter (fun res => res ≠ "Leek"))).flatten

/-- The left-hand side of the capacity constraint
`pulp.lpSum(vars.values()) <= self.total_factories`. -/
def sumVars (opt : FactoryOptimizer) (c : String → ℕ) : ℕ :=
  (opt.recipes.map (fun p => c p.1)).sum

/-- Feasibility for the constraint model shared by both modes: the capacity
constraint and, for every non-exempt resource keyed in `resource_balance`,
`resource_balance[res] >= 0`.  The exempt resource `"Leek"` is never
constrained. -/
def feasible (opt : FactoryOptimizer) (c : String → ℕ) : Prop :=
  sumVars opt c ≤ opt.totalFactories ∧
    ∀ res ∈ resourcesOf opt.recipes, res ≠ "Leek" → 0 ≤ balanceAt opt.recipes c res

instance (opt : FactoryOptimizer) (c : String → ℕ) : Decidable (feasible opt c) := by
  unfold feasible; infer_instance

/-- The GPM-mode objective
`pulp.lpSum(vars[name] * data["GPM"] for name, data in self.recipes.items())`. -/
def objGpm (opt : FactoryOptimizer) (c : String → ℕ) : ℚ :=
  (opt.recipes.map (fun p => (c p.1 : ℚ) * p.2.gpm)).sum

/-- `self.recipes[t]["Effective Rate"]` (0 for a missing key; the program only
ever indexes with keys present in the registry). -/
def effRateOf (opt : FactoryOptimizer) (t : String) : ℚ :=
  match lookupName t opt.recipes with
  | some r => r.effectiveRate
  | none => 0

/-- `self.recipes[n]["TierMultiplier"]`. -/
def tierOfName (opt : FactoryOptimizer) (n : String) : ℚ :=
  match lookupName n opt.recipes with
  | some r => r.base.tierMultiplier
  | none => 0

/-- The tier-mode objective
`vars[target_tier] * self.recipes[target_tier]["Effective Rate"]`. -/
def objTier (opt : FactoryOptimizer) (t : String) (c : String → ℕ) : ℚ :=
  (c t : ℚ) * effRateOf opt t

/-- One entry of the `allocations` list built by `_parse_results`. -/
structure Allocation where
  name : String
  count : ℕ
  tier : ℚ
  production : ℚ
  gpm : ℚ
  deriving DecidableEq

/-- The result dict built by `_parse_results`. -/
structure OptResult where
  allocations : List Allocation
  total_gpm : ℚ
  mode : String
  target_tier : Option String
  achieved_tier_name : String
  achieved_tier_value : ℚ
  build_order : List String
  resource_balance : String → ℚ

/-- The recipes surviving the `count <= 0: continue` filter of
`_parse_results`, walked in build order, with their records and counts. -/
def mkUsed (opt : FactoryOptimizer) (c : String → ℕ) :
    List (String × AnnRecipe × ℕ) :=
  opt.buildOrder.filterMap (fun name =>
    match lookupName name opt.recipes with
    | none => none
    | some data => if c name = 0 then none else some (name, data, c name))

/-- One allocation record: `production = rate * count`,
`gpm = production * gold_gain * 60`. -/
def allocOf (p : String × AnnRecipe × ℕ) : Allocation :=
  { name := p.1
    count := p.2.2
    tier := p.2.1.base.tierMultiplier
    production := p.2.1.effectiveRate * (p.2.2 : ℚ)
    gpm := p.2.1.effectiveRate * (p.2.2 : ℚ) * p.2.1.base.goldGain * 60 }

/-- The `resource_flows` defaultdict of `_parse_results`, as a function:
outputs of used recipes add `qty * production`, non-exempt inputs subtract
it (`if res != "Leek"`). -/
def flowsOf (used : List (String × AnnRecipe × ℕ)) (res : String) : ℚ :=
  (used.map (fun p =>
    outQty p.2.1 res * (p.2.1.effectiveRate * (p.2.2 : ℚ)) -
      (if res = "Leek" then 0
       else inQty p.2.1 res * (p.2.1.effectiveRate * (p.2.2 : ℚ))))).sum

/-- The achieved-tier fold of `_parse_results`: starting from
`("None", 0)`, take each allocation whose tier strictly exceeds the best so
far. -/
def achievedTier (allocs : List Allocation) : String × ℚ :=
  allocs.foldl (fun best a => if best.2 < a.tier then (a.name, a.tier) else best)
    ("None", 0)

/-- `_parse_results(vars, mode, target_tier)` evaluated at a concrete integer
assignment `c` of the solved variables. -/
def parse_results (opt : FactoryOptimizer) (c : String → ℕ) (mode : String)
    (target : Option String) : OptResult :=
  let used := mkUsed opt c
  let allocs := used.map allocOf
  { allocations := allocs
    total_gpm := (allocs.map Allocation.gpm).sum
    mode := mode
    target_tier := target
    achieved_tier_name := (achievedTier allocs).1
    achieved_tier_value := (achievedTier allocs).2
    build_order := opt.buildOrder.filter (fun n => n ∈ allocs.map Allocation.name)
    resource_balance := fun res => flowsOf used res }

/-- `optimize_gpm`, with the CBC call's outcome passed explicitly:
`none` models a non-`Optimal` status (`return None`), `some c` an `Optimal`
solve whose integer variable values are `c`. -/
def optimize_gpm (opt : FactoryOptimizer) (solved : Option (String → ℕ)) :
    Option OptResult :=
  match solved with
  | none => none
  | some c => some (parse_results opt c "GPM" none)

/-- The candidate loop of `optimize_tiers` over a list of targets: a
non-`Optimal` attempt advances, an `Optimal` attempt is accepted exactly when
`vars[target_tier].varValue > 0`. -/
def tiersLoop (opt : FactoryOptimizer) (solver : String → Option (String → ℕ)) :
    List String → Option OptResult
  | [] => none
  | t :: rest =>
    match solver t with
    | none => tiersLoop opt solver rest
    | some c =>
      if 0 < c t then some (parse_results opt c "Tier" (some t))
      else tiersLoop opt solver rest

/-- `optimize_tiers`: iterate over `reversed(self.build_order)`, solving one
model per candidate target; `solver t` is the outcome of the CBC call for
target `t`. -/
def optimize_tiers (opt : FactoryOptimizer)
    (solver : String → Option (String → ℕ)) : Option OptResult :=
  tiersLoop opt solver opt.buildOrder.reverse

/-- `optimize_gpm` with Python exceptions made explicit: the body contains no
`try`/`except`, so an exception raised inside `prob.solve(...)` (modelled as
`Except.error`) propagates to the caller. -/
def optimize_gpm_exc (opt : FactoryOptimizer)
    (solved : Except String (Option (String → ℕ))) :
    Except String (Option OptResult) :=
  match solved with
  | .error e => .error e
  | .ok r => .ok (optimize_gpm opt r)

/-- The `optimize_tiers` candidate loop with Python exceptions made explicit:
an exception raised by a candidate's solve aborts the whole loop (there is no
`try`/`except` around `prob.solve`). -/
def tiersLoopExc (opt : FactoryOptimizer)
    (solver : String → Except String (Option (String → ℕ))) :
    List String → Except String (Option OptResult)
  | [] => .ok none
  | t :: rest =>
    match solver t with
    | .error e => .error e
    | .ok none => tiersLoopExc opt solver rest
    | .ok (some c) =>
      if 0 < c t then .ok (some (parse_results opt c "Tier" (some t)))
      else tiersLoopExc opt solver rest

/-- `optimize_tiers` with Python exceptions made explicit. -/
def optimize_tiers_exc (opt : FactoryOptimizer)
    (solver : String → Except String (Option (String → ℕ))) :
    Except String (Option OptResult) :=
  tiersLoopExc opt solver opt.buildOrder.reverse

/-- The CBC contract for one tier-mode attempt, per spec §4.4: an `Optimal`
outcome is a feasible point maximizing the attempt's objective; a
non-`Optimal` outcome means the model has no feasible point. -/
def tierSolverOk (opt : FactoryOptimizer)
    (solver : String → Option (String → ℕ)) : Prop :=
  ∀ t ∈ opt.buildOrder,
    match solver t with
    | some c => feasible opt c ∧ ∀ c', feasible opt c' → objTier opt t c' ≤ objTier opt t c
    | none => ∀ c, ¬ feasible opt c

/-- The feasibility half of the solver contract alone (enough for the
capacity / balance / build-order invariants). -/
def tierSolverFeasOk (opt : FactoryOptimizer)
    (solver : String → Option (String → ℕ)) : Prop :=
  ∀ t c, solver t = some c → feasible opt c

/-- A recipe admitting a feasible allocation that produces it:
some assignment satisfies the shared constraints with `count(t) > 0`. -/
def posFeasible (opt : FactoryOptimizer) (t : String) : Prop :=
  ∃ c, feasible opt c ∧ 0 < c t

/-- A topological order of the dependency graph: pairwise-distinct vertices,
and every key's predecessors occur strictly before it. -/
def isTopoOrder (g : List (String × List String)) (ord : List String) : Prop :=
  ord.Nodup ∧
    ∀ n ps, (n, ps) ∈ g → ∃ pre suf, ord = pre ++ n :: suf ∧ ∀ p ∈ ps, p ∈ pre

/-- Sum of the reported factory counts of a result. -/
def allocCountSum (res : OptResult) : ℕ :=
  (res.allocations.map Allocation.count).sum

/-- Concrete one-recipe instance: a producer of the exempt resource with no
inputs (`Base Rate` 1, `Gold Gain` 1, `TierMultiplier` 1). -/
def raw1 : List (String × Recipe) :=
  [("Leek Farm", { baseRate := 1, goldGain := 1, tierMultiplier := 1
                   inputs := [], outputs := [("Leek", 1)] })]

/-- The optimizer built from `raw1` with `rate_multiplier=1`,
`factory_level=1`, `total_factories=1`. -/
def opt1 : FactoryOptimizer :=
  { recipes := [("Leek Farm",
      { base := { baseRate := 1, goldGain := 1, tierMultiplier := 1
                  inputs := [], outputs := [("Leek", 1)] }
        effectiveRate := 1, gpm := 60 })]
    rateMultiplier := 1, factoryLevel := 1, totalFactories := 1
    buildOrder := ["Leek Farm"] }

/-- The (unique) optimal solution of `opt1`'s GPM model: one factory on the
single recipe. -/
def sol1 : String → ℕ := fun n => if n = "Leek Farm" then 1 else 0

/-- The optimizer built from `raw1` with `total_factories = 0`. -/
def opt0 : FactoryOptimizer :=
  { recipes := opt1.recipes
    rateMultiplier := 1, factoryLevel := 1, totalFactories := 0
    buildOrder := ["Leek Farm"] }

/-- Concrete two-recipe instance with no dependencies between the recipes:
declared first, `"Gold Farm"` has the higher `TierMultiplier` (5); declared
second, `"Stone Farm"` has `TierMultiplier` 1. -/
def raw2 : List (String × Recipe) :=
  [("Gold Farm", { baseRate := 1, goldGain := 1, tierMultiplier := 5
                   inputs := [], outputs := [("GoldX", 1)] }),
   ("Stone Farm", { baseRate := 1, goldGain := 1, tierMultiplier := 1
                    inputs := [], outputs := [("StoneX", 1)] })]

/-- The optimizer built from `raw2` with `rate_multiplier=1`,
`factory_level=1`, `total_factories=1`.  Both recipes are independent, so the
build order is the declaration order. -/
def opt2 : FactoryOptimizer :=
  { recipes := [("Gold Farm",
      { base := { baseRate := 1, goldGain := 1, tierMultiplier := 5
                  inputs := [], outputs := [("GoldX", 1)] }
        effectiveRate := 1, gpm := 60 }),
     ("Stone Farm",
      { base := { baseRate := 1, goldGain := 1, tierMultiplier := 1
                  inputs := [], outputs := [("StoneX", 1)] }
        effectiveRate := 1, gpm := 60 })]
    rateMultiplier := 1, factoryLevel := 1, totalFactories := 1
    buildOrder := ["Gold Farm", "Stone Farm"] }

/-- An honest CBC outcome for every tier-mode attempt on `opt2`: put the one
available factory on the target itself (each attempt's unique optimum). -/
def solver2 : String → Option (String → ℕ) :=
  fun t => some (fun n => if n = t then 1 else 0)

/-- Concrete cyclic instance: recipe `"A"` consumes resource `"B"` and recipe
`"B"` consumes resource `"A"`, so the recipe-as-resource coupling yields a
two-cycle. -/
def rawCyc : List (String × Recipe) :=
  [("A", { baseRate := 1, goldGain := 1, tierMultiplier := 1
           inputs := [("B", 1)], outputs := [("A", 1)] }),
   ("B", { baseRate := 1, goldGain := 1, tierMultiplier := 2
           inputs := [("A", 1)], outputs := [("B", 1)] })]

/-- The dependency graph of the cyclic instance. -/
def gCyc : List (String × List String) :=
  depGraphOf (precalcRates 1 1 (cleanRecipes rawCyc))

/-- Concrete instance containing the excluded recipe `"Barrel to Leek"`. -/
def raw10 : List (String × Recipe) :=
  [("Barrel to Leek", { baseRate := 3, goldGain := 0, tierMultiplier := 1
                        inputs := [("Barrel", 1)], outputs := [("Leek", 1)] }),
   ("Leek Farm", { baseRate := 1, goldGain := 1, tierMultiplier := 1
                   inputs := [], outputs := [("Leek", 1)] })]

/-- The caller-visible recipe mapping after `__init__` returns:
`self.recipes = recipes` makes the optimizer alias the caller's dict, so the
in-place `del` of `_clean_recipes` and the key insertions of
`_precalculate_rates` are visible through the caller's own reference. -/
def callerRecipesAfterInit (raw : List (String × Recipe)) (rm : ℚ) (fl : ℕ) :
    List (String × AnnRecipe) :=
  precalcRates rm fl (cleanRecipes raw)

/-- Dependency-respecting property of a (filtered) build order: no listed
recipe appears before a listed recipe it depends on in the dependency
graph. -/
def buildOrderTopoOk (opt : FactoryOptimizer) (bo : List String) : Prop :=
  ∀ n ps, (n, ps) ∈ depGraphOf opt.recipes → n ∈ bo →
    ∀ p ∈ ps, p ∈ bo → ∃ pre suf, bo = pre ++ n :: suf ∧ p ∈ pre

/-! ### Helper lemmas -/

theorem lookupName_eq_some_of_mem {α : Type} {l : List (String × α)}
    (hnd : (l.map Prod.fst).Nodup) {p : String × α} (hp : p ∈ l) :
    lookupName p.1 l = some p.2 := by
  induction l with
  | nil => cases hp
  | cons hd tl ih =>
    simp only [List.map_cons, List.nodup_cons] at hnd
    rcases List.mem_cons.mp hp with rfl | hmem
    · simp [lookupName]
    · have hne : hd.1 ≠ p.1 := by
        intro he
        exact hnd.1 (by rw [he]; exact List.mem_map_of_mem Prod.fst hmem)
      show (if hd.1 = p.1 then some hd.2 else lookupName p.1 tl) = some p.2
      rw [if_neg hne]
      exact ih hnd.2 hmem

theorem mem_of_lookupName_eq_some {α : Type} {l : List (String × α)} {n : String}
    {r : α} (h : lookupName n l = some r) : (n, r) ∈ l := by
  induction l with
  | nil => simp [lookupName] at h
  | cons hd tl ih =>
    unfold lookupName at h
    split at h
    · next heq =>
      injection h with h
      subst h
      exact heq ▸ List.mem_cons_self _ _
    · exact List.mem_cons_of_mem _ (ih h)

theorem keys_precalcRates (rm : ℚ) (fl : ℕ) (rs : List (String × Recipe)) :
    (precalcRates rm fl rs).map Prod.fst = rs.map Prod.fst := by
  simp [precalcRates, List.map_map]

theorem keys_depGraphOf (rs : List (String × AnnRecipe)) :
    (depGraphOf rs).map Prod.fst = rs.map Prod.fst := by
  simp [depGraphOf, List.map_map]

theorem keys_cleanRecipes_nodup {raw : List (String × Recipe)}
    (h : (raw.map Prod.fst).Nodup) :
    ((cleanRecipes raw).map Prod.fst).Nodup :=
  h.sublist ((List.filter_sublist raw).map Prod.fst)

theorem pickReady_spec (em : List String) (rem : List (String × List String)) :
    ∀ m rest, pickReady em rem = some (m, rest) →
      ∃ ps, (∀ p ∈ ps, p ∈ em) ∧ rem.Perm ((m, ps) :: rest) := by
  induction rem with
  | nil => intro m rest h; simp [pickReady] at h
  | cons hd tail ih =>
    obtain ⟨n, ps⟩ := hd
    intro m rest h
    unfold pickReady at h
    split at h
    · next hc =>
      injection h with h
      injection h with h1 h2
      subst h1
      subst h2
      exact ⟨ps, hc, List.Perm.refl _⟩
    · next hc =>
      revert h
      split
      · next m' rest' hpr =>
        intro h
        injection h with h
        injection h with h1 h2
        subst h1
        subst h2
        obtain ⟨ps', hps', hperm⟩ := ih m' rest' hpr
        refine ⟨ps', hps', ?_⟩
        have hsw : List.Perm ((n, ps) :: (m', ps') :: rest')
            ((m', ps') :: (n, ps) :: rest') := List.Perm.swap _ _ _
        exact (hperm.cons _).trans hsw
      · intro h; cases h

theorem topoLoop_extends :
    ∀ fuel acc rem ord, topoLoop fuel acc rem = some ord →
      ∃ ext, ord = acc ++ ext := by
  intro fuel
  induction fuel with
  | zero =>
    intro acc rem ord h
    unfold topoLoop at h
    split at h
    · injection h with h; exact ⟨[], by simp [h]⟩
    · cases h
  | succ k ih =>
    intro acc rem ord h
    unfold topoLoop at h
    split at h
    · injection h with h; exact ⟨[], by simp [h]⟩
    · revert h
      split
      · intro h; cases h
      · next n rest hpr =>
        intro h
        obtain ⟨ext, hext⟩ := ih _ _ _ h
        exact ⟨n :: ext, by simp [hext]⟩

theorem topoLoop_perm :
    ∀ fuel acc rem ord, topoLoop fuel acc rem = some ord →
      ord.Perm (acc ++ rem.map Prod.fst) := by
  intro fuel
  induction fuel with
  | zero =>
    intro acc rem ord h
    unfold topoLoop at h
    split at h
    · next hemp =>
      injection h with h
      subst h
      simp [List.isEmpty_iff.mp hemp]
    · cases h
  | succ k ih =>
    intro acc rem ord h
    unfold topoLoop at h
    split at h
    · next hemp =>
      injection h with h
      subst h
      simp [List.isEmpty_iff.mp hemp]
    · revert h
      split
      · intro h; cases h
      · next n rest hpr =>
        intro h
        obtain ⟨ps, _, hperm⟩ := pickReady_spec _ _ _ _ hpr
        have h1 := ih _ _ _ h
        have h2 : (rem.map Prod.fst).Perm (n :: rest.map Prod.fst) := by
          have := hperm.map Prod.fst
          simpa using this
        have h3 : acc ++ [n] ++ rest.map Prod.fst = acc ++ n :: rest.map Prod.fst := by
          simp
        rw [h3] at h1
        exact h1.trans (h2.symm.append_left acc)

theorem topoLoop_sound :
    ∀ fuel acc rem ord, topoLoop fuel acc rem = some ord →
      ∀ n ps, (n, ps) ∈ rem →
        ∃ pre suf, ord = pre ++ n :: suf ∧ ∀ p ∈ ps, p ∈ pre := by
  intro fuel
  induction fuel with
  | zero =>
    intro acc rem ord h n ps hmem
    unfold topoLoop at h
    split at h
    · next hemp => rw [List.isEmpty_iff.mp hemp] at hmem; cases hmem
    · cases h
  | succ k ih =>
    intro acc rem ord h n ps hmem
    unfold topoLoop at h
    split at h
    · next hemp => rw [List.isEmpty_iff.mp hemp] at hmem; cases hmem
    · revert h
      split
      · intro h; cases h
      · next m rest hpr =>
        intro h
        obtain ⟨psm, hpsm, hperm⟩ := pickReady_spec _ _ _ _ hpr
        rcases List.mem_cons.mp (hperm.mem_iff.mp hmem) with heq | hrest
        · injection heq with h1 h2
          subst h1
          subst h2
          obtain ⟨ext, hext⟩ := topoLoop_extends _ _ _ _ h
          exact ⟨acc, ext, by simp [hext], hpsm⟩
        · exact ih _ _ _ h n ps hrest

theorem topoSort_perm {g : List (String × List String)} {ord : List String}
    (h : topoSort g = some ord) : ord.Perm (g.map Prod.fst) := by
  have := topoLoop_perm g.length [] g ord h
  simpa using this

theorem topoSort_isTopoOrder {g : List (String × List String)} {ord : List String}
    (hnd : (g.map Prod.fst).Nodup) (h : topoSort g = some ord) :
    isTopoOrder g ord := by
  refine ⟨(topoSort_perm h).nodup_iff.mpr hnd, ?_⟩
  exact fun n ps hmem => topoLoop_sound g.length [] g ord h n ps hmem

theorem mk'_spec {raw : List (String × Recipe)} {rm : ℚ} {fl : ℕ} {tf : ℕ}
    {opt : FactoryOptimizer} (h : FactoryOptimizer.mk' raw rm fl tf = some opt) :
    opt.recipes = precalcRates rm fl (cleanRecipes raw) ∧
    opt.rateMultiplier = rm ∧ opt.factoryLevel = fl ∧ opt.totalFactories = tf ∧
    topoSort (depGraphOf opt.recipes) = some opt.buildOrder := by
  unfold FactoryOptimizer.mk' at h
  revert h
  split
  · intro h; cases h
  · next ord hord =>
    intro h
    injection h with h
    subst h
    exact ⟨rfl, rfl, rfl, rfl, hord⟩

theorem mk'_wf {raw : List (String × Recipe)} {rm : ℚ} {fl : ℕ} {tf : ℕ}
    {opt : FactoryOptimizer} (hkeys : (raw.map Prod.fst).Nodup)
    (hmk : FactoryOptimizer.mk' raw rm fl tf = some opt) :
    (opt.recipes.map Prod.fst).Nodup ∧
    opt.buildOrder.Perm (opt.recipes.map Prod.fst) ∧
    isTopoOrder (depGraphOf opt.recipes) opt.buildOrder ∧
    ∀ p ∈ opt.recipes, p.2.gpm = p.2.effectiveRate * p.2.base.goldGain * 60 := by
  obtain ⟨hrec, -, -, -, hord⟩ := mk'_spec hmk
  have hnd : (opt.recipes.map Prod.fst).Nodup := by
    rw [hrec, keys_precalcRates]
    exact keys_cleanRecipes_nodup hkeys
  have hgnd : ((depGraphOf opt.recipes).map Prod.fst).Nodup := by
    rw [keys_depGraphOf]; exact hnd
  refine ⟨hnd, ?_, topoSort_isTopoOrder hgnd hord, ?_⟩
  · have := topoSort_perm hord
    rw [keys_depGraphOf] at this
    exact this
  · intro p hp
    rw [hrec] at hp
    simp only [precalcRates, List.mem_map] at hp
    obtain ⟨q, -, rfl⟩ := hp
    ring

theorem sum_filterMap_eq {α : Type} (L : List String) (g : String → Option α)
    (f : α → ℚ) (f' : String → ℚ)
    (hrel : ∀ n ∈ L, (∀ x, g n = some x → f x = f' n) ∧ (g n = none → f' n = 0)) :
    ((L.filterMap g).map f).sum = (L.map f').sum := by
  induction L with
  | nil => rfl
  | cons hd tl ih =>
    have hh := hrel hd (List.mem_cons_self _ _)
    have htl := ih (fun n hn => hrel n (List.mem_cons_of_mem _ hn))
    cases hg : g hd with
    | none => simp [List.filterMap_cons, hg, hh.2 hg, htl]
    | some x => simp [List.filterMap_cons, hg, hh.1 x hg, htl]

theorem sum_filterMap_le {α : Type} (L : List String) (g : String → Option α)
    (f : α → ℕ) (c : String → ℕ)
    (hrel : ∀ n ∈ L, ∀ x, g n = some x → f x = c n) :
    ((L.filterMap g).map f).sum ≤ (L.map c).sum := by
  induction L with
  | nil => exact Nat.le_refl _
  | cons hd tl ih =>
    have htl := ih (fun n hn => hrel n (List.mem_cons_of_mem _ hn))
    cases hg : g hd with
    | none =>
      simp only [List.filterMap_cons, hg, List.map_cons, List.sum_cons]
      exact htl.trans (Nat.le_add_left _ _)
    | some x =>
      simp only [List.filterMap_cons, hg, List.map_cons, List.sum_cons,
        hrel hd (List.mem_cons_self _ _) x hg]
      exact Nat.add_le_add_left htl _

theorem parse_allocations (opt : FactoryOptimizer) (c : String → ℕ)
    (mode : String) (target : Option String) :
    (parse_results opt c mode target).allocations = (mkUsed opt c).map allocOf := rfl

theorem parse_total_gpm (opt : FactoryOptimizer) (c : String → ℕ)
    (mode : String) (target : Option String) :
    (parse_results opt c mode target).total_gpm =
      (((mkUsed opt c).map allocOf).map Allocation.gpm).sum := rfl

theorem parse_build_order (opt : FactoryOptimizer) (c : String → ℕ)
    (mode : String) (target : Option String) :
    (parse_results opt c mode target).build_order =
      opt.buildOrder.filter
        (fun n => n ∈ ((mkUsed opt c).map allocOf).map Allocation.name) := rfl

theorem parse_balance (opt : FactoryOptimizer) (c : String → ℕ)
    (mode : String) (target : Option String) (res : String) :
    (parse_results opt c mode target).resource_balance res =
      flowsOf (mkUsed opt c) res := rfl

theorem parse_target (opt : FactoryOptimizer) (c : String → ℕ)
    (mode : String) (target : Option String) :
    (parse_results opt c mode target).target_tier = target := rfl

theorem mkUsed_eq_filterMap (opt : FactoryOptimizer) (c : String → ℕ) :
    mkUsed opt c = opt.buildOrder.filterMap (fun name =>
      match lookupName name opt.recipes with
      | none => none
      | some data => if c name = 0 then none else some (name, data, c name)) := rfl

theorem usedRel {opt : FactoryOptimizer} {c : String → ℕ}
    (F : String × AnnRecipe × ℕ → ℚ) (G : String → AnnRecipe → ℚ)
    (hFG : ∀ n r, c n ≠ 0 → F (n, r, c n) = G n r) :
    ∀ n ∈ opt.buildOrder,
      (∀ x, (match lookupName n opt.recipes with
             | none => none
             | some data => if c n = 0 then none else some (n, data, c n)) = some x →
          F x = (match lookupName n opt.recipes with
                 | none => 0
                 | some r => if c n = 0 then 0 else G n r)) ∧
      ((match lookupName n opt.recipes with
        | none => none
        | some data => if c n = 0 then none else some (n, data, c n)) = none →
        (match lookupName n opt.recipes with
         | none => 0
         | some r => if c n = 0 then 0 else G n r) = 0) := by
  intro n hn
  cases hlk : lookupName n opt.recipes with
  | none => exact ⟨fun x hx => Option.noConfusion hx, fun hx => rfl⟩
  | some r =>
    by_cases hc : c n = 0
    · refine ⟨fun x hx => ?_, fun hx => ?_⟩
      · have hx' : (if c n = 0 then none
            else some (n, r, c n) : Option (String × AnnRecipe × ℕ)) = some x := hx
        rw [if_pos hc] at hx'
        exact Option.noConfusion hx'
      · show (if c n = 0 then (0 : ℚ) else G n r) = 0
        rw [if_pos hc]
    · refine ⟨fun x hx => ?_, fun hx => ?_⟩
      · have hx' : (if c n = 0 then none
            else some (n, r, c n) : Option (String × AnnRecipe × ℕ)) = some x := hx
        rw [if_neg hc] at hx'
        injection hx' with hx'
        subst hx'
        show F (n, r, c n) = if c n = 0 then (0 : ℚ) else G n r
        rw [if_neg hc]
        exact hFG n r hc
      · have hx' : (if c n = 0 then none
            else some (n, r, c n) : Option (String × AnnRecipe × ℕ)) = none := hx
        rw [if_neg hc] at hx'
        exact Option.noConfusion hx'

theorem total_gpm_eq_objGpm {opt : FactoryOptimizer} (c : String → ℕ)
    (hnd : (opt.recipes.map Prod.fst).Nodup)
    (hperm : opt.buildOrder.Perm (opt.recipes.map Prod.fst))
    (hgpm : ∀ p ∈ opt.recipes, p.2.gpm = p.2.effectiveRate * p.2.base.goldGain * 60) :
    (((mkUsed opt c).map allocOf).map Allocation.gpm).sum = objGpm opt c := by
  rw [List.map_map, mkUsed_eq_filterMap]
  rw [sum_filterMap_eq opt.buildOrder _ (Allocation.gpm ∘ allocOf)
    (fun n =>
      match lookupName n opt.recipes with
      | none => 0
      | some r => if c n = 0 then 0
                  else r.effectiveRate * (c n : ℚ) * r.base.goldGain * 60)
    (usedRel (Allocation.gpm ∘ allocOf)
      (fun n r => r.effectiveRate * (c n : ℚ) * r.base.goldGain * 60)
      (fun n r _ => rfl))]
  rw [(hperm.map _).sum_eq, List.map_map]
  unfold objGpm
  apply congrArg List.sum
  apply List.map_congr_left
  intro p hp
  have hlk : lookupName p.1 opt.recipes = some p.2 :=
    lookupName_eq_some_of_mem hnd hp
  simp only [Function.comp_apply, hlk]
  by_cases hc : c p.1 = 0
  · simp [hc]
  · rw [if_neg hc, hgpm p hp]
    ring

theorem countSum_le_sumVars {opt : FactoryOptimizer} (c : String → ℕ)
    (hperm : opt.buildOrder.Perm (opt.recipes.map Prod.fst)) :
    (((mkUsed opt c).map allocOf).map Allocation.count).sum ≤ sumVars opt c := by
  rw [List.map_map, mkUsed_eq_filterMap]
  have hstep := sum_filterMap_le opt.buildOrder
    (fun name =>
      match lookupName name opt.recipes with
      | none => none
      | some data => if c name = 0 then none else some (name, data, c name))
    (Allocation.count ∘ allocOf) c ?_
  · refine hstep.trans ?_
    rw [(hperm.map c).sum_eq, List.map_map]
    exact Nat.le_refl _
  · intro n hn x hx
    have hx' : (match lookupName n opt.recipes with
        | none => none
        | some data => if c n = 0 then none
          else some (n, data, c n)) = some x := hx
    cases hlk : lookupName n opt.recipes with
    | none =>
      rw [hlk] at hx'
      exact Option.noConfusion hx'
    | some r =>
      rw [hlk] at hx'
      by_cases hc : c n = 0
      · have hx2 : (if c n = 0 then none
            else some (n, r, c n) : Option (String × AnnRecipe × ℕ)) = some x := hx'
        rw [if_pos hc] at hx2
        exact Option.noConfusion hx2
      · have hx2 : (if c n = 0 then none
            else some (n, r, c n) : Option (String × AnnRecipe × ℕ)) = some x := hx'
        rw [if_neg hc] at hx2
        injection hx2 with hx2
        subst hx2
        rfl

theorem flowsOf_eq_balanceAt {opt : FactoryOptimizer} (c : String → ℕ) (res : String)
    (hnd : (opt.recipes.map Prod.fst).Nodup)
    (hperm : opt.buildOrder.Perm (opt.recipes.map Prod.fst)) :
    flowsOf (mkUsed opt c) res = balanceAt opt.recipes c res := by
  unfold flowsOf
  rw [mkUsed_eq_filterMap]
  rw [sum_filterMap_eq opt.buildOrder _ _
    (fun n =>
      match lookupName n opt.recipes with
      | none => 0
      | some r => if c n = 0 then 0
                  else outQty r res * r.effectiveRate * (c n : ℚ) -
                    (if res = "Leek" then 0
                     else inQty r res * r.effectiveRate * (c n : ℚ)))
    (usedRel _
      (fun n r => outQty r res * r.effectiveRate * (c n : ℚ) -
        (if res = "Leek" then 0
         else inQty r res * r.effectiveRate * (c n : ℚ)))
      (fun n r _ => by by_cases hres : res = "Leek" <;> simp [hres] <;> ring))]
  rw [(hperm.map _).sum_eq, List.map_map]
  unfold balanceAt
  apply congrArg List.sum
  apply List.map_congr_left
  intro p hp
  have hlk : lookupName p.1 opt.recipes = some p.2 :=
    lookupName_eq_some_of_mem hnd hp
  simp only [Function.comp_apply, hlk]
  by_cases hc : c p.1 = 0
  · rw [if_pos hc, hc]
    by_cases hres : res = "Leek" <;> simp [hres]
  · rw [if_neg hc]

theorem outQty_eq_zero {r : AnnRecipe} {res : String}
    (h : res ∉ r.base.outputs.map Prod.fst) : outQty r res = 0 := by
  unfold outQty
  apply List.sum_eq_zero
  intro x hx
  obtain ⟨q, hq, rfl⟩ := List.mem_map.mp hx
  rw [if_neg]
  intro he
  exact h (by rw [← he]; exact List.mem_map_of_mem Prod.fst hq)

theorem inQty_eq_zero {r : AnnRecipe} {res : String}
    (h : res ∉ r.base.inputs.map Prod.fst) : inQty r res = 0 := by
  unfold inQty
  apply List.sum_eq_zero
  intro x hx
  obtain ⟨q, hq, rfl⟩ := List.mem_map.mp hx
  rw [if_neg]
  intro he
  exact h (by rw [← he]; exact List.mem_map_of_mem Prod.fst hq)

theorem balanceAt_eq_zero {rs : List (String × AnnRecipe)} {c : String → ℕ}
    {res : String} (hres : res ∉ resourcesOf rs) (hne : res ≠ "Leek") :
    balanceAt rs c res = 0 := by
  unfold balanceAt
  apply List.sum_eq_zero
  intro x hx
  obtain ⟨p, hp, rfl⟩ := List.mem_map.mp hx
  have hout : res ∉ p.2.base.outputs.map Prod.fst := by
    intro hmem
    refine hres ?_
    unfold resourcesOf
    exact List.mem_flatten.mpr ⟨_, List.mem_map_of_mem _ hp,
      List.mem_append_left _ hmem⟩
  have hin : res ∉ p.2.base.inputs.map Prod.fst := by
    intro hmem
    refine hres ?_
    unfold resourcesOf
    refine List.mem_flatten.mpr ⟨_, List.mem_map_of_mem _ hp,
      List.mem_append_right _ ?_⟩
    exact List.mem_filter.mpr ⟨hmem, decide_eq_true hne⟩
  rw [outQty_eq_zero hout, inQty_eq_zero hin, if_neg hne]
  ring

theorem feasible_balance_nonneg {opt : FactoryOptimizer} {c : String → ℕ}
    (hf : feasible opt c) {res : String} (hne : res ≠ "Leek") :
    0 ≤ balanceAt opt.recipes c res := by
  by_cases hmem : res ∈ resourcesOf opt.recipes
  · exact hf.2 res hmem hne
  · rw [balanceAt_eq_zero hmem hne]

theorem feasible_zero (opt : FactoryOptimizer) : feasible opt (fun _ => 0) := by
  constructor
  · have h0 : sumVars opt (fun _ => 0) = 0 := by
      apply List.sum_eq_zero
      intro x hx
      obtain ⟨p, hp, rfl⟩ := List.mem_map.mp hx
      rfl
    rw [h0]
    exact Nat.zero_le _
  · intro res hres hne
    have h0 : balanceAt opt.recipes (fun _ => 0) res = 0 := by
      apply List.sum_eq_zero
      intro x hx
      obtain ⟨p, hp, rfl⟩ := List.mem_map.mp hx
      simp [hne]
    rw [h0]

theorem tiersLoop_spec (opt : FactoryOptimizer)
    (solver : String → Option (String → ℕ)) :
    ∀ L res, tiersLoop opt solver L = some res →
      ∃ pre t suf c, L = pre ++ t :: suf ∧ solver t = some c ∧ 0 < c t ∧
        res = parse_results opt c "Tier" (some t) ∧
        ∀ t' ∈ pre, solver t' = none ∨ ∃ c', solver t' = some c' ∧ c' t' = 0 := by
  intro L
  induction L with
  | nil => intro res h; cases h
  | cons hd tl ih =>
    intro res h
    unfold tiersLoop at h
    cases hs : solver hd with
    | none =>
      rw [hs] at h
      obtain ⟨pre, t, suf, c, hL, hsolve, hpos, hres, hpre⟩ := ih res h
      refine ⟨hd :: pre, t, suf, c, by rw [hL]; rfl, hsolve, hpos, hres, ?_⟩
      intro t' ht'
      rcases List.mem_cons.mp ht' with rfl | hmem
      · exact Or.inl hs
      · exact hpre t' hmem
    | some c0 =>
      rw [hs] at h
      have h' : (if 0 < c0 hd then some (parse_results opt c0 "Tier" (some hd))
          else tiersLoop opt solver tl) = some res := h
      by_cases hpos0 : 0 < c0 hd
      · rw [if_pos hpos0] at h'
        injection h' with h'
        exact ⟨[], hd, tl, c0, rfl, hs, hpos0, h'.symm,
          fun t' ht' => absurd ht' (List.not_mem_nil t')⟩
      · rw [if_neg hpos0] at h'
        obtain ⟨pre, t, suf, c, hL, hsolve, hpos, hres, hpre⟩ := ih res h'
        refine ⟨hd :: pre, t, suf, c, by rw [hL]; rfl, hsolve, hpos, hres, ?_⟩
        intro t' ht'
        rcases List.mem_cons.mp ht' with rfl | hmem
        · exact Or.inr ⟨c0, hs, Nat.eq_zero_of_not_pos hpos0⟩
        · exact hpre t' hmem

theorem indexOf_lt_of_mem_pre {ord pre suf : List String} {x y : String}
    (hnd : ord.Nodup) (he : ord = pre ++ x :: suf) (hy : y ∈ pre) :
    ord.indexOf y < ord.indexOf x := by
  subst he
  have hxpre : x ∉ pre := by
    rw [List.nodup_append] at hnd
    intro hx
    exact hnd.2.2 hx (List.mem_cons_self _ _)
  have hix : (pre ++ x :: suf).indexOf x = pre.length := by
    rw [List.indexOf_append_of_not_mem hxpre, List.indexOf_cons_self]
    omega
  have hiy : (pre ++ x :: suf).indexOf y < pre.length := by
    rw [List.indexOf_append_of_mem hy]
    exact List.indexOf_lt_length.mpr hy
  omega

theorem count_eq_zero_of_tf_zero {opt : FactoryOptimizer} {c : String → ℕ}
    (htf : opt.totalFactories = 0) (hf : feasible opt c) {n : String}
    (hn : n ∈ opt.recipes.map Prod.fst) : c n = 0 := by
  have h0 : sumVars opt c = 0 := by
    have := hf.1
    rw [htf] at this
    exact Nat.le_zero.mp this
  obtain ⟨p, hp, rfl⟩ := List.mem_map.mp hn
  exact List.sum_eq_zero_iff.mp h0 (c p.1)
    (List.mem_map_of_mem (fun q => c q.1) hp)

theorem tiersLoop_eq_none (opt : FactoryOptimizer)
    (solver : String → Option (String → ℕ)) :
    ∀ L, (∀ t ∈ L, ∀ c, solver t = some c → c t = 0) →
      tiersLoop opt solver L = none := by
  intro L
  induction L with
  | nil => intro h; rfl
  | cons hd tl ih =>
    intro h
    unfold tiersLoop
    cases hs : solver hd with
    | none => exact ih (fun t ht c hc => h t (List.mem_cons_of_mem _ ht) c hc)
    | some c0 =>
      have hz : c0 hd = 0 := h hd (List.mem_cons_self _ _) c0 hs
      show (if 0 < c0 hd then some (parse_results opt c0 "Tier" (some hd))
        else tiersLoop opt solver tl) = none
      rw [if_neg (by rw [hz]; exact Nat.lt_irrefl 0)]
      exact ih (fun t ht c hc => h t (List.mem_cons_of_mem _ ht) c hc)

theorem mkUsed_eq_nil_of_counts_zero {opt : FactoryOptimizer} {c : String → ℕ}
    (h : ∀ n ∈ opt.recipes.map Prod.fst, c n = 0) : mkUsed opt c = [] := by
  rw [mkUsed_eq_filterMap]
  apply List.filterMap_eq_nil_iff.mpr
  intro n hn
  cases hlk : lookupName n opt.recipes with
  | none => rfl
  | some r =>
    have hkey : n ∈ opt.recipes.map Prod.fst :=
      List.mem_map_of_mem Prod.fst (mem_of_lookupName_eq_some hlk)
    have hz : c n = 0 := h n hkey
    show (if c n = 0 then none
      else some (n, r, c n) : Option (String × AnnRecipe × ℕ)) = none
    rw [if_pos hz]

theorem opt1_mk : FactoryOptimizer.mk' raw1 1 1 1 = some opt1 := by
  simp +decide [FactoryOptimizer.mk', precalcRates, cleanRecipes, topoSort,
    topoLoop, pickReady, depGraphOf, opt1, raw1]

theorem sumVars_opt1 (c : String → ℕ) : sumVars opt1 c = c "Leek Farm" := by
  simp [sumVars, opt1]

theorem feasible_opt1_iff (c : String → ℕ) : feasible opt1 c ↔ c "Leek Farm" ≤ 1 := by
  constructor
  · intro h
    have := h.1
    rwa [sumVars_opt1] at this
  · intro h
    refine ⟨by rwa [sumVars_opt1], ?_⟩
    intro res hres hne
    simp [resourcesOf, opt1] at hres
    exact absurd hres hne

theorem objGpm_opt1 (c : String → ℕ) : objGpm opt1 c = (c "Leek Farm" : ℚ) * 60 := by
  simp [objGpm, opt1]

theorem opt1_sol1_optimal : ∀ c, feasible opt1 c → objGpm opt1 c ≤ objGpm opt1 sol1 := by
  intro c hc
  rw [objGpm_opt1, objGpm_opt1]
  have h1 : c "Leek Farm" ≤ 1 := (feasible_opt1_iff c).mp hc
  have h2 : (c "Leek Farm" : ℚ) ≤ 1 := by exact_mod_cast h1
  have h3 : ((sol1 "Leek Farm" : ℕ) : ℚ) = 1 := by simp [sol1]
  rw [h3]
  linarith

theorem opt1_sol1_feasible : feasible opt1 sol1 := by
  rw [feasible_opt1_iff]
  simp [sol1]

theorem effRate_opt2_GF : effRateOf opt2 "Gold Farm" = 1 := rfl
theorem effRate_opt2_SF : effRateOf opt2 "Stone Farm" = 1 := rfl
theorem tier_opt2_GF : tierOfName opt2 "Gold Farm" = 5 := rfl
theorem tier_opt2_SF : tierOfName opt2 "Stone Farm" = 1 := rfl

theorem opt2_tiers_result : optimize_tiers opt2 solver2 =
    some (parse_results opt2 (fun n => if n = "Stone Farm" then 1 else 0)
      "Tier" (some "Stone Farm")) := rfl

theorem sumVars_opt2 (c : String → ℕ) :
    sumVars opt2 c = c "Gold Farm" + c "Stone Farm" := by
  simp [sumVars, opt2]

theorem feasible_opt2_iff (c : String → ℕ) :
    feasible opt2 c ↔ c "Gold Farm" + c "Stone Farm" ≤ 1 := by
  constructor
  · intro h
    have := h.1
    rwa [sumVars_opt2] at this
  · intro h
    refine ⟨by rwa [sumVars_opt2], ?_⟩
    intro res hres hne
    simp [resourcesOf, opt2] at hres
    rcases hres with rfl | rfl
    · simp [balanceAt, opt2, outQty, inQty]
    · simp [balanceAt, opt2, outQty, inQty]

theorem opt2_solverOk : tierSolverOk opt2 solver2 := by
  intro t ht
  have hbo : opt2.buildOrder = ["Gold Farm", "Stone Farm"] := rfl
  rw [hbo] at ht
  have key : ∀ s : String, s = "Gold Farm" ∨ s = "Stone Farm" →
      feasible opt2 (fun n => if n = s then 1 else 0) ∧
      ∀ c', feasible opt2 c' →
        objTier opt2 s c' ≤ objTier opt2 s (fun n => if n = s then 1 else 0) := by
    intro s hs
    constructor
    · rw [feasible_opt2_iff]
      rcases hs with rfl | rfl <;> simp
    · intro c' hc'
      rw [feasible_opt2_iff] at hc'
      have heff : effRateOf opt2 s = 1 := by rcases hs with rfl | rfl <;> rfl
      unfold objTier
      rw [heff]
      have h1 : c' s ≤ 1 := by
        rcases hs with rfl | rfl
        · exact le_trans (Nat.le_add_right _ _) hc'
        · exact le_trans (Nat.le_add_left _ _) hc'
      have h2 : (c' s : ℚ) ≤ 1 := by exact_mod_cast h1
      have h3 : ((if s = s then 1 else 0 : ℕ) : ℚ) = 1 := by simp
      rw [h3]
      linarith
  simp only [List.mem_cons, List.not_mem_nil, or_false] at ht
  show feasible opt2 (fun n => if n = t then 1 else 0) ∧
      ∀ c', feasible opt2 c' →
        objTier opt2 t c' ≤ objTier opt2 t (fun n => if n = t then 1 else 0)
  exact key t ht

theorem opt0_mk : FactoryOptimizer.mk' raw1 1 1 0 = some opt0 := by
  simp +decide [FactoryOptimizer.mk', precalcRates, cleanRecipes, topoSort,
    topoLoop, pickReady, depGraphOf, opt0, opt1, raw1]

theorem sumVars_opt0 (c : String → ℕ) : sumVars opt0 c = c "Leek Farm" := by
  simp [sumVars, opt0, opt1]

theorem feasible_opt0_iff (c : String → ℕ) : feasible opt0 c ↔ c "Leek Farm" = 0 := by
  constructor
  · intro h
    have := h.1
    rw [sumVars_opt0] at this
    exact Nat.le_zero.mp this
  · intro h
    refine ⟨by rw [sumVars_opt0, h]; exact Nat.le_refl 0, ?_⟩
    intro res hres hne
    simp [resourcesOf, opt0, opt1] at hres
    exact absurd hres hne

theorem opt0_zero_optimal : ∀ c, feasible opt0 c →
    objGpm opt0 c ≤ objGpm opt0 (fun _ => 0) := by
  intro c hc
  have h0 : c "Leek Farm" = 0 := (feasible_opt0_iff c).mp hc
  have hl : objGpm opt0 c = (c "Leek Farm" : ℚ) * 60 := by simp [objGpm, opt0, opt1]
  have hr : objGpm opt0 (fun _ => 0) = 0 := by simp [objGpm, opt0, opt1]
  rw [hl, hr, h0]
  norm_num

theorem opt2_mk : FactoryOptimizer.mk' raw2 1 1 1 = some opt2 := by
  simp +decide [FactoryOptimizer.mk', precalcRates, cleanRecipes, topoSort,
    topoLoop, pickReady, depGraphOf, opt2, raw2]

theorem raw1_keys_nodup : (raw1.map Prod.fst).Nodup := by simp [raw1]

theorem raw2_keys_nodup : (raw2.map Prod.fst).Nodup := by simp [raw2]

/-! ### Claim theorems -/

/-- C8: after construction, every recipe remaining in the registry carries
`effectiveRate = baseRate * rateMultiplier ^ (factoryLevel - 1)` and
`gpmPerUnit = effectiveRate * goldGain * 60`, exactly (`_precalculate_rates`). -/
theorem C8_derived_rates {raw : List (String × Recipe)} {rm : ℚ} {fl tf : ℕ}
    {opt : FactoryOptimizer} (hmk : FactoryOptimizer.mk' raw rm fl tf = some opt) :
    ∀ p ∈ opt.recipes,
      p.2.effectiveRate = p.2.base.baseRate * rm ^ (fl - 1) ∧
      p.2.gpm = p.2.effectiveRate * p.2.base.goldGain * 60 := by
  obtain ⟨hrec, -, -, -, -⟩ := mk'_spec hmk
  intro p hp
  rw [hrec] at hp
  simp only [precalcRates, List.mem_map] at hp
  obtain ⟨q, -, rfl⟩ := hp
  exact ⟨rfl, rfl⟩

/-- Witness for C8 on a concrete one-recipe instance. -/
theorem C8_derived_rates_witness :
    FactoryOptimizer.mk' raw1 1 1 1 = some opt1 ∧
    ∀ p ∈ opt1.recipes,
      p.2.effectiveRate = p.2.base.baseRate * (1 : ℚ) ^ (1 - 1) ∧
      p.2.gpm = p.2.effectiveRate * p.2.base.goldGain * 60 :=
  ⟨opt1_mk, C8_derived_rates opt1_mk⟩

/-- C10: `__init__` mutates the caller-supplied mapping in place — the
optimizer aliases the caller's dict (`self.recipes = recipes`), so after
construction the caller's mapping has lost the `"Barrel to Leek"` entry and
every remaining record has gained the derived `"Effective Rate"` and `"GPM"`
keys; when the excluded recipe was present, the caller's key list has
changed. -/
theorem C10_caller_mutation (raw : List (String × Recipe)) (rm : ℚ) (fl : ℕ) :
    (callerRecipesAfterInit raw rm fl).map Prod.fst =
      (raw.map Prod.fst).filter (fun n => n ≠ "Barrel to Leek") ∧
    "Barrel to Leek" ∉ (callerRecipesAfterInit raw rm fl).map Prod.fst ∧
    (∀ p ∈ callerRecipesAfterInit raw rm fl, (p.1, p.2.base) ∈ raw ∧
        p.2.effectiveRate = p.2.base.baseRate * rm ^ (fl - 1) ∧
        p.2.gpm = p.2.base.baseRate * rm ^ (fl - 1) * p.2.base.goldGain * 60) ∧
    ("Barrel to Leek" ∈ raw.map Prod.fst →
      (callerRecipesAfterInit raw rm fl).map Prod.fst ≠ raw.map Prod.fst) := by
  have hkeys : (callerRecipesAfterInit raw rm fl).map Prod.fst =
      (raw.map Prod.fst).filter (fun n => n ≠ "Barrel to Leek") := by
    unfold callerRecipesAfterInit
    rw [keys_precalcRates]
    unfold cleanRecipes
    rw [List.filter_map]
    rfl
  have hnotin : "Barrel to Leek" ∉ (callerRecipesAfterInit raw rm fl).map Prod.fst := by
    rw [hkeys]
    intro hmem
    have := List.of_mem_filter hmem
    simp at this
  refine ⟨hkeys, hnotin, ?_, ?_⟩
  · intro p hp
    unfold callerRecipesAfterInit precalcRates at hp
    simp only [List.mem_map] at hp
    obtain ⟨q, hq, rfl⟩ := hp
    exact ⟨List.mem_of_mem_filter hq, rfl, rfl⟩
  · intro hmem he
    rw [he] at hnotin
    exact hnotin hmem

/-- Witness for C10 on a concrete instance containing `"Barrel to Leek"`. -/
theorem C10_caller_mutation_witness :
    ("Barrel to Leek" ∈ raw10.map Prod.fst) ∧
    (callerRecipesAfterInit raw10 1 1).map Prod.fst ≠ raw10.map Prod.fst ∧
    "Barrel to Leek" ∉ (callerRecipesAfterInit raw10 1 1).map Prod.fst := by
  have h := C10_caller_mutation raw10 1 1
  have hmem : "Barrel to Leek" ∈ raw10.map Prod.fst := by
    simp [raw10]
  exact ⟨hmem, h.2.2.2 hmem, h.2.1⟩

/-- C7: a recipe set whose dependency graph admits no topological order makes
construction fail (graphlib raises `CycleError`, the spec's
`CyclicDependencyError`), before any optimization can run — no optimizer
value exists for it. -/
theorem C7_cyclic_construction {raw : List (String × Recipe)} {rm : ℚ} {fl tf : ℕ}
    (hkeys : (raw.map Prod.fst).Nodup)
    (hcyc : ¬ ∃ ord,
      isTopoOrder (depGraphOf (precalcRates rm fl (cleanRecipes raw))) ord) :
    FactoryOptimizer.mk' raw rm fl tf = none := by
  cases hmk : FactoryOptimizer.mk' raw rm fl tf with
  | none => rfl
  | some opt =>
    obtain ⟨hrec, -, -, -, hord⟩ := mk'_spec hmk
    exfalso
    apply hcyc
    refine ⟨opt.buildOrder, ?_⟩
    have hgeq : depGraphOf (precalcRates rm fl (cleanRecipes raw)) =
        depGraphOf opt.recipes := by rw [hrec]
    rw [hgeq]
    refine topoSort_isTopoOrder ?_ hord
    rw [keys_depGraphOf, hrec, keys_precalcRates]
    exact keys_cleanRecipes_nodup hkeys

/-- Witness for C7: the concrete two-cycle (`"A"` needs `"B"`, `"B"` needs
`"A"`) has no topological order, and construction on it returns no
optimizer. -/
theorem C7_cyclic_construction_witness :
    (¬ ∃ ord, isTopoOrder gCyc ord) ∧
    FactoryOptimizer.mk' rawCyc 1 1 1 = none := by
  have hA : ("A", ["B"]) ∈ gCyc := by
    simp +decide [gCyc, depGraphOf, precalcRates, cleanRecipes, rawCyc]
  have hB : ("B", ["A"]) ∈ gCyc := by
    simp +decide [gCyc, depGraphOf, precalcRates, cleanRecipes, rawCyc]
  have hno : ¬ ∃ ord, isTopoOrder gCyc ord := by
    rintro ⟨ord, hnd, hall⟩
    obtain ⟨pre1, suf1, he1, hp1⟩ := hall "A" ["B"] hA
    obtain ⟨pre2, suf2, he2, hp2⟩ := hall "B" ["A"] hB
    have h1 : ord.indexOf "B" < ord.indexOf "A" :=
      indexOf_lt_of_mem_pre hnd he1 (hp1 "B" (by simp))
    have h2 : ord.indexOf "A" < ord.indexOf "B" :=
      indexOf_lt_of_mem_pre hnd he2 (hp2 "A" (by simp))
    omega
  have hkeys : (rawCyc.map Prod.fst).Nodup := by
    simp [rawCyc]
  exact ⟨hno, C7_cyclic_construction hkeys hno⟩

/-- C1: with the CBC contract as hypotheses (the solve returned a feasible
point maximizing the GPM objective), the result reported by `optimize_gpm`
has `total_gpm` equal to the model optimum, and no alternative assignment
satisfying the capacity and non-exempt resource-balance constraints attains
a strictly higher total GPM. -/
theorem C1_gpm_optimal {raw : List (String × Recipe)} {rm : ℚ} {fl tf : ℕ}
    {opt : FactoryOptimizer} {sol : String → ℕ} {res : OptResult}
    (hkeys : (raw.map Prod.fst).Nodup)
    (hmk : FactoryOptimizer.mk' raw rm fl tf = some opt)
    (hfeas : feasible opt sol)
    (hopt : ∀ c, feasible opt c → objGpm opt c ≤ objGpm opt sol)
    (hres : optimize_gpm opt (some sol) = some res) :
    res.total_gpm = objGpm opt sol ∧
      ∀ c, feasible opt c → objGpm opt c ≤ res.total_gpm := by
  obtain ⟨hnd, hperm, -, hgpm⟩ := mk'_wf hkeys hmk
  have hres' : res = parse_results opt sol "GPM" none := by
    unfold optimize_gpm at hres
    injection hres with hres
    exact hres.symm
  subst hres'
  rw [parse_total_gpm, total_gpm_eq_objGpm sol hnd hperm hgpm]
  exact ⟨rfl, hopt⟩

/-- Witness for C1 at the concrete one-recipe instance (one factory, one
recipe; the optimum puts the factory on it). -/
theorem C1_gpm_optimal_witness :
    FactoryOptimizer.mk' raw1 1 1 1 = some opt1 ∧ feasible opt1 sol1 ∧
    (parse_results opt1 sol1 "GPM" none).total_gpm = objGpm opt1 sol1 ∧
    objGpm opt1 (fun _ => 0) ≤ (parse_results opt1 sol1 "GPM" none).total_gpm := by
  have h := C1_gpm_optimal raw1_keys_nodup opt1_mk opt1_sol1_feasible
    opt1_sol1_optimal rfl
  exact ⟨opt1_mk, opt1_sol1_feasible, h.1, h.2 (fun _ => 0) (feasible_zero opt1)⟩

/-- C3: for a result returned by either mode (under the solver-feasibility
contract), the sum of the reported integer factory counts is at most
`totalFactories`. -/
theorem C3_capacity_bound {raw : List (String × Recipe)} {rm : ℚ} {fl tf : ℕ}
    {opt : FactoryOptimizer} (hkeys : (raw.map Prod.fst).Nodup)
    (hmk : FactoryOptimizer.mk' raw rm fl tf = some opt) :
    (∀ sol res, feasible opt sol → optimize_gpm opt (some sol) = some res →
       allocCountSum res ≤ opt.totalFactories) ∧
    (∀ solver res, tierSolverFeasOk opt solver →
       optimize_tiers opt solver = some res →
       allocCountSum res ≤ opt.totalFactories) := by
  obtain ⟨hnd, hperm, -, -⟩ := mk'_wf hkeys hmk
  constructor
  · intro sol res hfeas hres
    have hres' : res = parse_results opt sol "GPM" none := by
      unfold optimize_gpm at hres
      injection hres with hres
      exact hres.symm
    subst hres'
    unfold allocCountSum
    rw [parse_allocations]
    exact (countSum_le_sumVars sol hperm).trans hfeas.1
  · intro solver res hok hres
    unfold optimize_tiers at hres
    obtain ⟨pre, t, suf, c, hL, hsolve, hpos, hres', hpre⟩ :=
      tiersLoop_spec opt solver _ res hres
    subst hres'
    unfold allocCountSum
    rw [parse_allocations]
    exact (countSum_le_sumVars c hperm).trans (hok t c hsolve).1

/-- Witness for C3 at the concrete one-recipe instance. -/
theorem C3_capacity_bound_witness :
    allocCountSum (parse_results opt1 sol1 "GPM" none) ≤ opt1.totalFactories :=
  (C3_capacity_bound raw1_keys_nodup opt1_mk).1 sol1 _ opt1_sol1_feasible rfl

/-- C4: in a result returned by either mode (under the solver-feasibility
contract), every non-exempt resource has non-negative net flow — in this
exact-rational model the reported `resource_balance` is `≥ 0` outright, which
implies the spec's `≥ -ε` for any tolerance `ε > 0`.  The exempt resource
`"Leek"` is never constrained: both `feasible` and `balanceAt` skip it, as
the Python model does. -/
theorem C4_resource_balance {raw : List (String × Recipe)} {rm : ℚ} {fl tf : ℕ}
    {opt : FactoryOptimizer} (hkeys : (raw.map Prod.fst).Nodup)
    (hmk : FactoryOptimizer.mk' raw rm fl tf = some opt) :
    (∀ sol res, feasible opt sol → optimize_gpm opt (some sol) = some res →
       ∀ x, x ≠ "Leek" → 0 ≤ res.resource_balance x) ∧
    (∀ solver res, tierSolverFeasOk opt solver →
       optimize_tiers opt solver = some res →
       ∀ x, x ≠ "Leek" → 0 ≤ res.resource_balance x) := by
  obtain ⟨hnd, hperm, -, -⟩ := mk'_wf hkeys hmk
  constructor
  · intro sol res hfeas hres x hx
    have hres' : res = parse_results opt sol "GPM" none := by
      unfold optimize_gpm at hres
      injection hres with hres
      exact hres.symm
    subst hres'
    rw [parse_balance, flowsOf_eq_balanceAt sol x hnd hperm]
    exact feasible_balance_nonneg hfeas hx
  · intro solver res hok hres x hx
    unfold optimize_tiers at hres
    obtain ⟨pre, t, suf, c, hL, hsolve, hpos, hres', hpre⟩ :=
      tiersLoop_spec opt solver _ res hres
    subst hres'
    rw [parse_balance, flowsOf_eq_balanceAt c x hnd hperm]
    exact feasible_balance_nonneg (hok t c hsolve) hx

/-- Witness for C4 at the concrete two-recipe instance, checked at the
produced resource `"GoldX"`. -/
theorem C4_resource_balance_witness :
    (0 : ℚ) ≤ (parse_results opt2 (fun n => if n = "Gold Farm" then 1 else 0)
      "GPM" none).resource_balance "GoldX" := by
  have hfeas : feasible opt2 (fun n => if n = "Gold Farm" then 1 else 0) := by
    rw [feasible_opt2_iff]
    simp
  exact (C4_resource_balance raw2_keys_nodup opt2_mk).1 _ _ hfeas rfl "GoldX"
    (by decide)

/-- C2 counterexample: on two independent recipes where the declaration
(= build) order disagrees with the tier order, `optimize_tiers` — scanning
`reversed(build_order)` — returns the later-declared `"Stone Farm"`
(`TierMultiplier` 1) although `"Gold Farm"` (`TierMultiplier` 5) also admits
a feasible positive allocation: the returned target's tier is NOT the maximum
tier among feasibly-producible recipes. -/
theorem C2_tier_counterexample :
    FactoryOptimizer.mk' raw2 1 1 1 = some opt2 ∧
    tierSolverOk opt2 solver2 ∧
    (∃ res, optimize_tiers opt2 solver2 = some res ∧
      res.target_tier = some "Stone Farm") ∧
    tierOfName opt2 "Stone Farm" = 1 ∧
    posFeasible opt2 "Gold Farm" ∧
    tierOfName opt2 "Gold Farm" = 5 ∧
    tierOfName opt2 "Stone Farm" < tierOfName opt2 "Gold Farm" := by
  refine ⟨opt2_mk, opt2_solverOk, ⟨_, opt2_tiers_result, rfl⟩,
    tier_opt2_SF, ?_, tier_opt2_GF,
    by rw [tier_opt2_SF, tier_opt2_GF]; norm_num⟩
  refine ⟨fun n => if n = "Gold Farm" then 1 else 0, ?_, by simp⟩
  rw [feasible_opt2_iff]
  simp

/-- C2 amended: under the CBC contract the accepted target is the recipe
occurring latest in the build order among those admitting a feasible positive
allocation — the loop scans `reversed(build_order)` and accepts the first
strictly positive solved count — which need not be the recipe of maximum
`tierMultiplier`. -/
theorem C2_tier_amended {raw : List (String × Recipe)} {rm : ℚ} {fl tf : ℕ}
    {opt : FactoryOptimizer} {solver : String → Option (String → ℕ)}
    {res : OptResult}
    (hkeys : (raw.map Prod.fst).Nodup)
    (hmk : FactoryOptimizer.mk' raw rm fl tf = some opt)
    (heff : ∀ p ∈ opt.recipes, 0 < p.2.effectiveRate)
    (hsolver : tierSolverOk opt solver)
    (hres : optimize_tiers opt solver = some res) :
    ∃ t pre suf, res.target_tier = some t ∧
      opt.buildOrder.reverse = pre ++ t :: suf ∧
      posFeasible opt t ∧
      ∀ t' ∈ pre, ¬ posFeasible opt t' := by
  obtain ⟨hnd, hperm, -, -⟩ := mk'_wf hkeys hmk
  unfold optimize_tiers at hres
  obtain ⟨pre, t, suf, c, hL, hsolve, hpos, hres', hpre⟩ :=
    tiersLoop_spec opt solver _ res hres
  have htmem : t ∈ opt.buildOrder := by
    rw [← List.mem_reverse, hL]
    exact List.mem_append_right _ (List.mem_cons_self _ _)
  have hct : feasible opt c ∧
      ∀ c', feasible opt c' → objTier opt t c' ≤ objTier opt t c := by
    have h := hsolver t htmem
    rw [hsolve] at h
    exact h
  refine ⟨t, pre, suf, ?_, hL, ⟨c, hct.1, hpos⟩, ?_⟩
  · rw [hres']
    rfl
  · intro t' ht'
    have ht'mem : t' ∈ opt.buildOrder := by
      rw [← List.mem_reverse, hL]
      exact List.mem_append_left _ ht'
    have hkey : t' ∈ opt.recipes.map Prod.fst := hperm.mem_iff.mp ht'mem
    obtain ⟨p, hp, hp1⟩ := List.mem_map.mp hkey
    have hlk : lookupName t' opt.recipes = some p.2 := by
      rw [← hp1]
      exact lookupName_eq_some_of_mem hnd hp
    have heffp : 0 < effRateOf opt t' := by
      unfold effRateOf
      rw [hlk]
      exact heff p hp
    rcases hpre t' ht' with hnone | ⟨c', hsome, hzero⟩
    · have h := hsolver t' ht'mem
      rw [hnone] at h
      exact absurd (feasible_zero opt) (h (fun _ => 0))
    · have h := hsolver t' ht'mem
      rw [hsome] at h
      obtain ⟨hfeas', hmax'⟩ := h
      rintro ⟨c'', hc'', hpos''⟩
      have hle := hmax' c'' hc''
      unfold objTier at hle
      rw [hzero] at hle
      simp only [Nat.cast_zero, zero_mul] at hle
      have h1 : (1 : ℚ) ≤ (c'' t' : ℚ) := by exact_mod_cast hpos''
      have hgt : (0 : ℚ) < (c'' t' : ℚ) * effRateOf opt t' :=
        mul_pos (lt_of_lt_of_le zero_lt_one h1) heffp
      linarith

/-- Witness for the amended C2 at the concrete two-recipe instance. -/
theorem C2_tier_amended_witness :
    ∃ t pre suf,
      (parse_results opt2 (fun n => if n = "Stone Farm" then 1 else 0)
        "Tier" (some "Stone Farm")).target_tier = some t ∧
      opt2.buildOrder.reverse = pre ++ t :: suf ∧
      posFeasible opt2 t ∧
      ∀ t' ∈ pre, ¬ posFeasible opt2 t' := by
  have heff : ∀ p ∈ opt2.recipes, 0 < p.2.effectiveRate := by
    intro p hp
    simp [opt2] at hp
    rcases hp with rfl | rfl <;> norm_num
  exact C2_tier_amended raw2_keys_nodup opt2_mk heff opt2_solverOk
    opt2_tiers_result

/-- C5 counterexample: with `totalFactories = 0` the GPM model's unique
optimal point is the all-zero assignment (shown by the optimality
hypothesis), the solver status is `Optimal`, and `optimize_gpm` returns a
PRESENT result whose allocation list is empty — not `None`/absent as the
claim states. -/
theorem C5_absent_counterexample :
    FactoryOptimizer.mk' raw1 1 1 0 = some opt0 ∧
    feasible opt0 (fun _ => 0) ∧
    (∀ c, feasible opt0 c → objGpm opt0 c ≤ objGpm opt0 (fun _ => 0)) ∧
    (∃ res, optimize_gpm opt0 (some (fun _ => 0)) = some res ∧
      res.allocations = []) ∧
    optimize_gpm opt0 (some (fun _ => 0)) ≠ none := by
  refine ⟨opt0_mk, feasible_zero opt0, opt0_zero_optimal, ⟨_, rfl, ?_⟩,
    fun h => Option.noConfusion h⟩
  rw [parse_allocations, mkUsed_eq_nil_of_counts_zero (fun n hn => rfl)]
  rfl

/-- C5 amended: `optimize_gpm` returns `None` exactly on a non-`Optimal`
status; when the solve is `Optimal` but no recipe has positive count (as
forced by `totalFactories = 0`) it returns a present result with an empty
allocation list, while `optimize_tiers` — whose acceptance requires a
strictly positive solved count — returns `None`. -/
theorem C5_absent_amended {raw : List (String × Recipe)} {rm : ℚ} {fl : ℕ}
    {opt : FactoryOptimizer}
    (hkeys : (raw.map Prod.fst).Nodup)
    (hmk : FactoryOptimizer.mk' raw rm fl 0 = some opt) :
    optimize_gpm opt none = none ∧
    (∀ sol, feasible opt sol →
      ∃ res, optimize_gpm opt (some sol) = some res ∧ res.allocations = []) ∧
    (∀ solver, tierSolverFeasOk opt solver →
      optimize_tiers opt solver = none) := by
  obtain ⟨-, -, -, htf, -⟩ := mk'_spec hmk
  obtain ⟨-, hperm, -, -⟩ := mk'_wf hkeys hmk
  refine ⟨rfl, ?_, ?_⟩
  · intro sol hfeas
    refine ⟨_, rfl, ?_⟩
    have hz : ∀ n ∈ opt.recipes.map Prod.fst, sol n = 0 :=
      fun n hn => count_eq_zero_of_tf_zero htf hfeas hn
    rw [parse_allocations, mkUsed_eq_nil_of_counts_zero hz]
    rfl
  · intro solver hok
    unfold optimize_tiers
    apply tiersLoop_eq_none
    intro t ht c hc
    have htmem : t ∈ opt.recipes.map Prod.fst :=
      hperm.mem_iff.mp (List.mem_reverse.mp ht)
    exact count_eq_zero_of_tf_zero htf (hok t c hc) htmem

/-- Witness for the amended C5 at the concrete zero-factory instance. -/
theorem C5_absent_amended_witness :
    optimize_gpm opt0 none = none ∧
    (∃ res, optimize_gpm opt0 (some (fun _ => 0)) = some res ∧
      res.allocations = []) ∧
    optimize_tiers opt0 (fun t => some (fun _ => 0)) = none := by
  have h := C5_absent_amended raw1_keys_nodup opt0_mk
  refine ⟨h.1, h.2.1 (fun _ => 0) (feasible_zero opt0), h.2.2 _ ?_⟩
  intro t c hc
  injection hc with hc
  rw [← hc]
  exact feasible_zero opt0

/-- C6 counterexample: the Python methods contain no `try`/`except`, so an
exception raised by the solver engine (modelled as `Except.error`)
PROPAGATES out of `optimize_gpm` — it is not converted into the `None`
(`Except.ok none`) outcome the claim promises — and in `optimize_tiers` it
aborts the whole candidate loop instead of advancing to the next target. -/
theorem C6_solver_failure_counterexample :
    optimize_gpm_exc opt1 (Except.error "PulpSolverError") =
      Except.error "PulpSolverError" ∧
    (Except.error "PulpSolverError" :
      Except String (Option OptResult)) ≠ Except.ok none ∧
    optimize_tiers_exc opt2 (fun t => Except.error "PulpSolverError") =
      Except.error "PulpSolverError" :=
  ⟨rfl, fun h => Except.noConfusion h, rfl⟩

/-- C6 amended: a non-`Optimal` STATUS is indeed treated as "no feasible
solution" (`optimize_gpm` returns `None`; the tier loop advances to the next
candidate), but an EXCEPTION raised inside the solver is not caught anywhere
and propagates to the caller in both modes. -/
theorem C6_solver_outcomes :
    (∀ opt : FactoryOptimizer,
      optimize_gpm_exc opt (Except.ok none) = Except.ok none) ∧
    (∀ (opt : FactoryOptimizer)
      (solver : String → Except String (Option (String → ℕ)))
      (t : String) (rest : List String), solver t = Except.ok none →
      tiersLoopExc opt solver (t :: rest) = tiersLoopExc opt solver rest) ∧
    (∀ (opt : FactoryOptimizer) (e : String),
      optimize_gpm_exc opt (Except.error e) = Except.error e) ∧
    (∀ (opt : FactoryOptimizer)
      (solver : String → Except String (Option (String → ℕ)))
      (t : String) (rest : List String) (e : String),
      solver t = Except.error e →
      tiersLoopExc opt solver (t :: rest) = Except.error e) := by
  refine ⟨fun opt => rfl, ?_, fun opt e => rfl, ?_⟩
  · intro opt solver t rest hs
    show (match solver t with
      | Except.error e => Except.error e
      | Except.ok none => tiersLoopExc opt solver rest
      | Except.ok (some c) =>
        if 0 < c t then Except.ok (some (parse_results opt c "Tier" (some t)))
        else tiersLoopExc opt solver rest) = tiersLoopExc opt solver rest
    rw [hs]
  · intro opt solver t rest e hs
    show (match solver t with
      | Except.error e => Except.error e
      | Except.ok none => tiersLoopExc opt solver rest
      | Except.ok (some c) =>
        if 0 < c t then Except.ok (some (parse_results opt c "Tier" (some t)))
        else tiersLoopExc opt solver rest) = Except.error e
    rw [hs]

/-- Witness for the amended C6 at concrete inputs. -/
theorem C6_solver_outcomes_witness :
    optimize_gpm_exc opt1 (Except.ok none) = Except.ok none ∧
    tiersLoopExc opt1 (fun t => Except.ok none) ["Leek Farm"] =
      tiersLoopExc opt1 (fun t => Except.ok none) [] ∧
    optimize_gpm_exc opt1 (Except.error "boom") = Except.error "boom" ∧
    tiersLoopExc opt1 (fun t => Except.error "boom") ["Leek Farm"] =
      Except.error "boom" := by
  obtain ⟨h1, h2, h3, h4⟩ := C6_solver_outcomes
  exact ⟨h1 opt1, h2 opt1 _ "Leek Farm" [] rfl, h3 opt1 "boom",
    h4 opt1 _ "Leek Farm" [] "boom" rfl⟩

theorem filter_topo {g : List (String × List String)} {ord : List String}
    (htopo : ∀ n ps, (n, ps) ∈ g →
      ∃ pre suf, ord = pre ++ n :: suf ∧ ∀ p ∈ ps, p ∈ pre)
    (pred : String → Bool) :
    ∀ n ps, (n, ps) ∈ g → n ∈ ord.filter pred →
      ∀ p ∈ ps, p ∈ ord.filter pred →
        ∃ pre suf, ord.filter pred = pre ++ n :: suf ∧ p ∈ pre := by
  intro n ps hg hn p hp hpf
  obtain ⟨Pre, Suf, hord, hps⟩ := htopo n ps hg
  have hpredn : pred n = true := List.of_mem_filter hn
  refine ⟨Pre.filter pred, Suf.filter pred, ?_, ?_⟩
  · rw [hord, List.filter_append, List.filter_cons_of_pos hpredn]
  · exact List.mem_filter.mpr ⟨hps p hp, List.of_mem_filter hpf⟩

theorem mem_used_names_iff {opt : FactoryOptimizer} (c : String → ℕ)
    (hnd : (opt.recipes.map Prod.fst).Nodup)
    (hperm : opt.buildOrder.Perm (opt.recipes.map Prod.fst))
    {n : String} (hn : n ∈ opt.buildOrder) :
    n ∈ ((mkUsed opt c).map allocOf).map Allocation.name ↔ 0 < c n := by
  rw [List.map_map]
  constructor
  · intro h
    obtain ⟨x, hx, hxn⟩ := List.mem_map.mp h
    rw [mkUsed_eq_filterMap] at hx
    obtain ⟨m, hm, hgm⟩ := List.mem_filterMap.mp hx
    have hgm' : (match lookupName m opt.recipes with
        | none => none
        | some data => if c m = 0 then none
          else some (m, data, c m)) = some x := hgm
    cases hlk : lookupName m opt.recipes with
    | none =>
      rw [hlk] at hgm'
      exact Option.noConfusion hgm'
    | some r =>
      rw [hlk] at hgm'
      have hgm2 : (if c m = 0 then none
          else some (m, r, c m) : Option (String × AnnRecipe × ℕ)) = some x := hgm'
      by_cases hc : c m = 0
      · rw [if_pos hc] at hgm2
        exact Option.noConfusion hgm2
      · rw [if_neg hc] at hgm2
        injection hgm2 with hgm2
        subst hgm2
        have : m = n := hxn
        subst this
        exact Nat.pos_of_ne_zero hc
  · intro hpos
    have hkey : n ∈ opt.recipes.map Prod.fst := hperm.mem_iff.mp hn
    obtain ⟨p, hp, hp1⟩ := List.mem_map.mp hkey
    have hlk : lookupName n opt.recipes = some p.2 := by
      rw [← hp1]
      exact lookupName_eq_some_of_mem hnd hp
    apply List.mem_map.mpr
    refine ⟨(n, p.2, c n), ?_, rfl⟩
    rw [mkUsed_eq_filterMap]
    apply List.mem_filterMap.mpr
    refine ⟨n, hn, ?_⟩
    show (match lookupName n opt.recipes with
      | none => none
      | some data => if c n = 0 then none
        else some (n, data, c n)) = some (n, p.2, c n)
    rw [hlk]
    show (if c n = 0 then none
      else some (n, p.2, c n) : Option (String × AnnRecipe × ℕ)) = some (n, p.2, c n)
    rw [if_neg (Nat.pos_iff_ne_zero.mp hpos)]

theorem parse_build_order_filter {opt : FactoryOptimizer} (c : String → ℕ)
    (hnd : (opt.recipes.map Prod.fst).Nodup)
    (hperm : opt.buildOrder.Perm (opt.recipes.map Prod.fst))
    (mode : String) (target : Option String) :
    (parse_results opt c mode target).build_order =
      opt.buildOrder.filter (fun n => 0 < c n) := by
  rw [parse_build_order]
  apply List.filter_congr
  intro n hn
  rw [decide_eq_decide]
  exact mem_used_names_iff c hnd hperm hn

/-- C9: in every returned result, the reported build order is exactly the
positive-count subsequence of the full topological build order, in order;
consequently no listed recipe appears before a listed recipe it depends on. -/
theorem C9_filtered_build_order {raw : List (String × Recipe)} {rm : ℚ}
    {fl tf : ℕ} {opt : FactoryOptimizer}
    (hkeys : (raw.map Prod.fst).Nodup)
    (hmk : FactoryOptimizer.mk' raw rm fl tf = some opt) :
    (∀ sol res, optimize_gpm opt (some sol) = some res →
      res.build_order = opt.buildOrder.filter (fun n => 0 < sol n) ∧
      buildOrderTopoOk opt res.build_order) ∧
    (∀ solver res, optimize_tiers opt solver = some res →
      ∃ c : String → ℕ,
        res.build_order = opt.buildOrder.filter (fun n => 0 < c n) ∧
        buildOrderTopoOk opt res.build_order) := by
  obtain ⟨hnd, hperm, htopo, -⟩ := mk'_wf hkeys hmk
  have key : ∀ c mode target,
      (parse_results opt c mode target).build_order =
        opt.buildOrder.filter (fun n => 0 < c n) ∧
      buildOrderTopoOk opt (parse_results opt c mode target).build_order := by
    intro c mode target
    have hf := parse_build_order_filter c hnd hperm mode target
    refine ⟨hf, ?_⟩
    intro n ps hg hn p hp hpf
    rw [hf] at hn hpf ⊢
    exact filter_topo htopo.2 (fun n => decide (0 < c n)) n ps hg hn p hp hpf
  constructor
  · intro sol res hres
    have hres' : res = parse_results opt sol "GPM" none := by
      unfold optimize_gpm at hres
      injection hres with hres
      exact hres.symm
    subst hres'
    exact key sol "GPM" none
  · intro solver res hres
    unfold optimize_tiers at hres
    obtain ⟨pre, t, suf, c, hL, hsolve, hpos, hres', hpre⟩ :=
      tiersLoop_spec opt solver _ res hres
    subst hres'
    exact ⟨c, key c "Tier" (some t)⟩

/-- Witness for C9 at the concrete one-recipe instance. -/
theorem C9_filtered_build_order_witness :
    (parse_results opt1 sol1 "GPM" none).build_order =
      opt1.buildOrder.filter (fun n => 0 < sol1 n) ∧
    buildOrderTopoOk opt1 (parse_results opt1 sol1 "GPM" none).build_order :=
  (C9_filtered_build_order raw1_keys_nodup opt1_mk).1 sol1 _ rfl
